import Mathlib

/-!
# Verification of the `OggOpusMuxer` (Geano's Scene Optimizer)

A shallow embedding of the Ogg Opus muxer from `ogg-muxer.js`.  Byte buffers
are modelled as `List Nat` (each entry a byte value), JavaScript 32-bit
wrapping arithmetic as `Nat` arithmetic with explicit `% 2^32`, and the
muxer object as an explicit state record threaded through the operations.
-/

namespace OggMuxer

/-- Little-endian 16-bit serialization (`DataView.setUint16` with `true`). -/
def le16 (n : Nat) : List Nat := [n % 256, n / 256 % 256]

/-- Little-endian 32-bit serialization (`DataView.setUint32` with `true`);
the byte extraction wraps the value modulo 2^32 exactly as `ToUint32` does. -/
def le32 (n : Nat) : List Nat :=
  [n % 256, n / 256 % 256, n / 65536 % 256, n / 16777216 % 256]

/-- Little-endian 64-bit serialization (`DataView.setBigUint64` with `true`). -/
def le64 (n : Nat) : List Nat :=
  [n % 256, n / 2 ^ 8 % 256, n / 2 ^ 16 % 256, n / 2 ^ 24 % 256,
   n / 2 ^ 32 % 256, n / 2 ^ 40 % 256, n / 2 ^ 48 % 256, n / 2 ^ 56 % 256]

/-- Little-endian decoding of a 4-byte field (how a reader interprets the
bytes stored at a 32-bit field of the page header). -/
def de32 (l : List Nat) : Nat :=
  l.getD 0 0 + 256 * l.getD 1 0 + 65536 * l.getD 2 0 + 16777216 * l.getD 3 0

/-- Little-endian decoding of an 8-byte field. -/
def de64 (l : List Nat) : Nat :=
  l.getD 0 0 + 2 ^ 8 * l.getD 1 0 + 2 ^ 16 * l.getD 2 0 + 2 ^ 24 * l.getD 3 0 +
  2 ^ 32 * l.getD 4 0 + 2 ^ 40 * l.getD 5 0 + 2 ^ 48 * l.getD 6 0 + 2 ^ 56 * l.getD 7 0

theorem de32_le32 (n : Nat) : de32 (le32 n) = n % 2 ^ 32 := by
  simp only [de32, le32, List.getD, List.get?, Option.getD_some]
  omega

theorem de64_le64 (n : Nat) : de64 (le64 n) = n % 2 ^ 64 := by
  simp only [de64, le64, List.getD, List.get?, Option.getD_some]
  omega

/-! ## Checksum engine (`_makeCRCTable`, `_calculateCRC`)

`c = ((c & 0x80000000) ? (0x04c11db7 ^ (c << 1)) : (c << 1))`, one shift of
the most-significant-bit-first CRC with polynomial `0x04C11DB7`.  JavaScript
`<<` wraps to 32 bits, rendered here as `% 2 ^ 32`. -/

/-- One bit-step of the table generator loop in `_makeCRCTable`. -/
def crcStep (c : Nat) : Nat :=
  if c &&& 0x80000000 ≠ 0 then 0x04c11db7 ^^^ (c <<< 1 % 2 ^ 32)
  else c <<< 1 % 2 ^ 32

/-- Entry `n` of the CRC table: `c = n << 24` followed by 8 bit-steps
(`_makeCRCTable`). -/
def crcTableEntry (n : Nat) : Nat := crcStep^[8] (n <<< 24)

/-- The 256-entry CRC lookup table built by `_makeCRCTable`. -/
def crcTable : List Nat := (List.range 256).map crcTableEntry

/-- One byte-step of `_calculateCRC`:
`crc = (crc << 8) ^ crcTable[((crc >>> 24) ^ b) & 0xFF]`. -/
def crcUpdate (crc b : Nat) : Nat :=
  (crc <<< 8 % 2 ^ 32) ^^^ crcTable.getD ((crc >>> 24 ^^^ b) % 256) 0

/-- `_calculateCRC`'s loop body, iterating index `i` over the buffer: bytes
at offsets 22–25 (the checksum field) are replaced by zero. -/
def calcCRCAux : Nat → List Nat → Nat → Nat
  | _, [], crc => crc
  | i, b :: rest, crc =>
      calcCRCAux (i + 1) rest
        (if 22 ≤ i ∧ i ≤ 25 then crcUpdate crc 0 else crcUpdate crc b)

/-- `_calculateCRC buffer`: zero-initialized table-driven CRC over the whole
buffer with the checksum field treated as zero. -/
def calculateCRC (buffer : List Nat) : Nat := calcCRCAux 0 buffer 0

/-- Plain table-driven CRC over a byte list (no offset-based skipping);
recomputing the checksum of a page means running this over the page with
its checksum field zeroed. -/
def crcOfBytes (buffer : List Nat) : Nat := buffer.foldl crcUpdate 0

/-! ## Lacing (segment table) -/

/-- The per-packet inner loop of step 3 of `flushPage`, with an explicit
structural bound on the number of iterations (the loop subtracts at least
255 per round, so it runs at most `size` times): emit `255` while at least
255 bytes remain, then emit the remainder byte. -/
def lacingAux : Nat → Nat → List Nat
  | 0, size => [size]
  | fuel + 1, size =>
      if 255 ≤ size then 255 :: lacingAux fuel (size - 255) else [size]

/-- The lacing bytes one packet of `size` bytes contributes to the segment
table (the `while (size >= 255)` loop of `flushPage`). -/
def lacing (size : Nat) : List Nat := lacingAux size size

/-- The full segment table of a page: the lacing bytes of each pending
packet size, in order (step 3 of `flushPage`). -/
def segTableOf (sizes : List Nat) : List Nat := (sizes.map lacing).flatten

/-- Number of lacing segments a list of packet sizes occupies,
`⌊L/255⌋ + 1` per packet — the quantity `segmentsInBuffer` tracks. -/
def segsOf (sizes : List Nat) : Nat := (sizes.map (fun L => L / 255 + 1)).sum

/-! ## Muxer state and operations -/

/-- The mutable fields of an `OggOpusMuxer` instance. -/
structure MuxerState where
  sampleRate : Int
  channels : Int
  serial : Nat
  pageSequence : Nat
  granulePosition : Nat
  pages : List (List Nat)
  packetBuffer : List (List Nat)
  packetSizes : List Nat
  segmentsInBuffer : Nat
deriving Repr, DecidableEq

/-- The first 22 bytes of a page header: capture pattern `OggS`, version 0,
header-type flags, granule position, serial, page sequence number
(step 2 of `flushPage`, up to and excluding the checksum field). -/
def pagePre (seq : Nat) (isLast : Bool) (granule serial : Nat) : List Nat :=
  [0x4f, 0x67, 0x67, 0x53, 0,
   (if seq = 0 then 0x02 else 0) ||| (if isLast then 0x04 else 0)]
  ++ le64 granule ++ le32 serial ++ le32 seq

/-- Bytes of a page from offset 26 on: the segment-count byte
(`setUint8` wraps modulo 256), the segment table, and the packet payload
(steps 2–4 of `flushPage`). -/
def pageRest (segCount : Nat) (sizes : List Nat) (packets : List (List Nat)) :
    List Nat :=
  segCount % 256 :: (segTableOf sizes ++ packets.flatten)

/-- The complete page `flushPage` pushes: the header is first laid out with a
zero placeholder checksum, the CRC is computed over that buffer, and the
checksum field is then patched to the little-endian CRC (step 5). -/
def mkPage (seq : Nat) (isLast : Bool) (granule serial segCount : Nat)
    (sizes : List Nat) (packets : List (List Nat)) : List Nat :=
  let withZeroCRC :=
    pagePre seq isLast granule serial ++ [0, 0, 0, 0]
      ++ pageRest segCount sizes packets
  pagePre seq isLast granule serial ++ le32 (calculateCRC withZeroCRC)
    ++ pageRest segCount sizes packets

/-- `flushPage(isLast)`: no-op when the packet buffer is empty and the flush
is not terminal; otherwise serializes the pending packets into a page,
appends it to `pages`, increments the sequence number and clears the
pending buffers. -/
def flushPage (isLast : Bool) (s : MuxerState) : MuxerState :=
  if s.packetBuffer = [] ∧ isLast = false then s
  else
    { s with
      pages := s.pages ++ [mkPage s.pageSequence isLast s.granulePosition
        s.serial s.segmentsInBuffer s.packetSizes s.packetBuffer],
      pageSequence := s.pageSequence + 1,
      packetBuffer := [], packetSizes := [], segmentsInBuffer := 0 }

/-- The unconditional tail of `addPacket` (lines 40–43): push the packet and
its size, add its segment count, add its samples to the granule position. -/
def acceptPacket (packetData : List Nat) (samples : Nat) (s : MuxerState) :
    MuxerState :=
  { s with
    packetBuffer := s.packetBuffer ++ [packetData],
    packetSizes := s.packetSizes ++ [packetData.length],
    segmentsInBuffer := s.segmentsInBuffer + (packetData.length / 255 + 1),
    granulePosition := s.granulePosition + samples }

/-- `addPacket(packetData, samples)`: if the packet's segments would push the
buffer past 255 segments, flush first; then accept the packet. -/
def addPacket (packetData : List Nat) (samples : Nat) (s : MuxerState) :
    MuxerState :=
  let numSegments := packetData.length / 255 + 1
  acceptPacket packetData samples
    (if 255 < s.segmentsInBuffer + numSegments then flushPage false s else s)

/-- The fixed 19-byte identification header built by `_writeIdHeader`
(`setUint8`/`setUint32` wrap their arguments). -/
def idHeaderBytes (sampleRate channels : Int) : List Nat :=
  [0x4f, 0x70, 0x75, 0x73, 0x48, 0x65, 0x61, 0x64, 1, (channels % 256).toNat,
   0, 0]
  ++ le32 (sampleRate % 2 ^ 32).toNat ++ [0, 0, 0]

/-- Byte codes of the vendor string `"Geano Scene Optimizer"`. -/
def vendorBytes : List Nat :=
  [71, 101, 97, 110, 111, 32, 83, 99, 101, 110, 101, 32,
   79, 112, 116, 105, 109, 105, 122, 101, 114]

/-- The comment header built by `_writeCommentHeader`: magic `OpusTags`,
vendor-string length, vendor string, zero user comments. -/
def commentHeaderBytes : List Nat :=
  [0x4f, 0x70, 0x75, 0x73, 0x54, 0x61, 0x67, 0x73]
  ++ le32 vendorBytes.length ++ vendorBytes ++ le32 0

/-- The state before the constructor writes the header pages. -/
def emptyState (sampleRate channels : Int) (serial : Nat) : MuxerState :=
  ⟨sampleRate, channels, serial, 0, 0, [], [], [], 0⟩

/-- The `OggOpusMuxer` constructor: record the parameters, then
`_writeIdHeader` (addPacket + flushPage) and `_writeCommentHeader`
(addPacket + flushPage).  `serial` stands for the random serial number. -/
def initState (sampleRate channels : Int) (serial : Nat) : MuxerState :=
  flushPage false (addPacket commentHeaderBytes 0
    (flushPage false (addPacket (idHeaderBytes sampleRate channels) 0
      (emptyState sampleRate channels serial))))

/-- `getBlob()`: force a terminal flush, return the concatenated pages
together with the mutated state. -/
def getBlob (s : MuxerState) : List Nat × MuxerState :=
  let s1 := flushPage true s
  (s1.pages.flatten, s1)

/-! ## Traces of public operations -/

/-- One public call on a muxer instance after construction. -/
inductive MuxOp
  | packet (packetData : List Nat) (samples : Nat)
  | flush (isLast : Bool)
deriving Repr, DecidableEq

/-- Apply one public call to the state. -/
def applyOp (s : MuxerState) : MuxOp → MuxerState
  | .packet d n => addPacket d n s
  | .flush b => flushPage b s

/-- The state after construction and an arbitrary sequence of public calls. -/
def runOps (sampleRate channels : Int) (serial : Nat) (ops : List MuxOp) :
    MuxerState :=
  ops.foldl applyOp (initState sampleRate channels serial)

/-! ## Grouping semantics

A proof-level mirror of the muxer that remembers, for every page, which
packets (with their sample counts) were serialized into it and whether the
page came from a terminal flush.  `stateOfGroups` reconstructs the full
muxer state from this bookkeeping; the simulation lemmas below show the two
evolve in lockstep. -/

/-- A packet together with the `samples` argument it was submitted with. -/
abbrev TracedPacket := List Nat × Nat

/-- The packets of one emitted page, with the terminal flag of its flush. -/
abbrev Group := Bool × List TracedPacket

/-- The byte lengths of a list of traced packets. -/
def sizesOf (g : List TracedPacket) : List Nat := g.map fun q => q.1.length

/-- The payload bytes of a list of traced packets. -/
def datasOf (g : List TracedPacket) : List (List Nat) := g.map Prod.fst

/-- Total sample count of a list of traced packets. -/
def sumSamples (g : List TracedPacket) : Nat := (g.map Prod.snd).sum

/-- Total sample count across a list of groups. -/
def groupsSamples (gs : List Group) : Nat :=
  (gs.map fun g => sumSamples g.2).sum

/-- Grouping mirror of `flushPage`. -/
def groupFlush (isLast : Bool) (gp : List Group × List TracedPacket) :
    List Group × List TracedPacket :=
  if gp.2 = [] ∧ isLast = false then gp else (gp.1 ++ [(isLast, gp.2)], [])

/-- Grouping mirror of `addPacket`. -/
def groupAdd (packetData : List Nat) (samples : Nat)
    (gp : List Group × List TracedPacket) :
    List Group × List TracedPacket :=
  let numSegments := packetData.length / 255 + 1
  let gp1 := if 255 < segsOf (sizesOf gp.2) + numSegments then
    groupFlush false gp else gp
  (gp1.1, gp1.2 ++ [(packetData, samples)])

/-- Grouping mirror of `applyOp`. -/
def groupOp (gp : List Group × List TracedPacket) :
    MuxOp → List Group × List TracedPacket
  | .packet d n => groupAdd d n gp
  | .flush b => groupFlush b gp

/-- Grouping mirror of the constructor. -/
def groupInit (sampleRate channels : Int) :
    List Group × List TracedPacket :=
  groupFlush false (groupAdd commentHeaderBytes 0
    (groupFlush false (groupAdd (idHeaderBytes sampleRate channels) 0
      ([], []))))

/-- Grouping mirror of `runOps`. -/
def groupRun (sampleRate channels : Int) (ops : List MuxOp) :
    List Group × List TracedPacket :=
  ops.foldl groupOp (groupInit sampleRate channels)

/-- Render the pages of a list of groups, threading the page sequence
number and the cumulative granule position. -/
def renderPages (serial : Nat) : Nat → Nat → List Group → List (List Nat)
  | _, _, [] => []
  | seq, granAcc, (flag, g) :: gs =>
      mkPage seq flag (granAcc + sumSamples g) serial (segsOf (sizesOf g))
          (sizesOf g) (datasOf g)
        :: renderPages serial (seq + 1) (granAcc + sumSamples g) gs

/-- The muxer state determined by a grouping state. -/
def stateOfGroups (sampleRate channels : Int) (serial : Nat)
    (gp : List Group × List TracedPacket) : MuxerState :=
  { sampleRate := sampleRate, channels := channels, serial := serial,
    pageSequence := gp.1.length,
    granulePosition := groupsSamples gp.1 + sumSamples gp.2,
    pages := renderPages serial 0 0 gp.1,
    packetBuffer := datasOf gp.2,
    packetSizes := sizesOf gp.2,
    segmentsInBuffer := segsOf (sizesOf gp.2) }

theorem groupsSamples_append (gs₁ gs₂ : List Group) :
    groupsSamples (gs₁ ++ gs₂) = groupsSamples gs₁ + groupsSamples gs₂ := by
  simp [groupsSamples]

theorem sumSamples_append (g₁ g₂ : List TracedPacket) :
    sumSamples (g₁ ++ g₂) = sumSamples g₁ + sumSamples g₂ := by
  simp [sumSamples]

theorem segsOf_append (s₁ s₂ : List Nat) :
    segsOf (s₁ ++ s₂) = segsOf s₁ + segsOf s₂ := by
  simp [segsOf]

theorem renderPages_append (serial seq acc : Nat) (gs₁ gs₂ : List Group) :
    renderPages serial seq acc (gs₁ ++ gs₂) =
      renderPages serial seq acc gs₁ ++
        renderPages serial (seq + gs₁.length) (acc + groupsSamples gs₁) gs₂ := by
  induction gs₁ generalizing seq acc with
  | nil => simp [renderPages, groupsSamples]
  | cons g gs ih =>
      obtain ⟨flag, pkts⟩ := g
      have hg : groupsSamples ((flag, pkts) :: gs)
          = sumSamples pkts + groupsSamples gs := by simp [groupsSamples]
      simp only [List.cons_append, renderPages, List.append_eq, ih,
        List.length_cons, hg]
      rw [show seq + (gs.length + 1) = seq + 1 + gs.length by omega,
        show acc + (sumSamples pkts + groupsSamples gs)
          = acc + sumSamples pkts + groupsSamples gs by omega]

theorem renderPages_length (serial seq acc : Nat) (gs : List Group) :
    (renderPages serial seq acc gs).length = gs.length := by
  induction gs generalizing seq acc with
  | nil => rfl
  | cons g gs ih => obtain ⟨flag, pkts⟩ := g; simp [renderPages, ih]

/-! ### Simulation: the muxer and the grouping mirror evolve in lockstep -/

theorem flushPage_sim (sr ch : Int) (serial : Nat) (b : Bool)
    (gp : List Group × List TracedPacket) :
    flushPage b (stateOfGroups sr ch serial gp)
      = stateOfGroups sr ch serial (groupFlush b gp) := by
  obtain ⟨gs, pend⟩ := gp
  by_cases h : pend = [] ∧ b = false
  · obtain ⟨h1, h2⟩ := h
    subst h1; subst h2
    simp [flushPage, groupFlush, stateOfGroups, datasOf]
  · have hd : ¬((stateOfGroups sr ch serial (gs, pend)).packetBuffer = []
        ∧ b = false) := by
      intro hc
      exact h ⟨List.map_eq_nil_iff.mp hc.1, hc.2⟩
    rw [flushPage, if_neg hd, groupFlush, if_neg h]
    simp [stateOfGroups, MuxerState.mk.injEq, renderPages_append, renderPages,
      groupsSamples_append, groupsSamples, sumSamples, sizesOf, datasOf,
      segsOf]

theorem acceptPacket_sim (sr ch : Int) (serial : Nat) (d : List Nat) (n : Nat)
    (gs : List Group) (pend : List TracedPacket) :
    acceptPacket d n (stateOfGroups sr ch serial (gs, pend))
      = stateOfGroups sr ch serial (gs, pend ++ [(d, n)]) := by
  simp [acceptPacket, stateOfGroups, MuxerState.mk.injEq, sizesOf,
    datasOf, segsOf, sumSamples, Nat.add_assoc]

theorem addPacket_sim (sr ch : Int) (serial : Nat) (d : List Nat) (n : Nat)
    (gp : List Group × List TracedPacket) :
    addPacket d n (stateOfGroups sr ch serial gp)
      = stateOfGroups sr ch serial (groupAdd d n gp) := by
  obtain ⟨gs, pend⟩ := gp
  have hc : (stateOfGroups sr ch serial (gs, pend)).segmentsInBuffer
      = segsOf (sizesOf pend) := rfl
  show acceptPacket d n
      (if 255 < (stateOfGroups sr ch serial (gs, pend)).segmentsInBuffer
          + (d.length / 255 + 1) then
        flushPage false (stateOfGroups sr ch serial (gs, pend))
      else stateOfGroups sr ch serial (gs, pend)) = _
  rw [hc]
  simp only [groupAdd]
  by_cases h : 255 < segsOf (sizesOf pend) + (d.length / 255 + 1)
  · rw [if_pos h, if_pos h, flushPage_sim]
    rcases hgf : groupFlush false (gs, pend) with ⟨gs1, pend1⟩
    exact acceptPacket_sim sr ch serial d n gs1 pend1
  · rw [if_neg h, if_neg h]
    exact acceptPacket_sim sr ch serial d n gs pend

theorem applyOp_sim (sr ch : Int) (serial : Nat)
    (gp : List Group × List TracedPacket) (op : MuxOp) :
    applyOp (stateOfGroups sr ch serial gp) op
      = stateOfGroups sr ch serial (groupOp gp op) := by
  cases op with
  | packet d n => exact addPacket_sim sr ch serial d n gp
  | flush b => exact flushPage_sim sr ch serial b gp

theorem emptyState_sim (sr ch : Int) (serial : Nat) :
    emptyState sr ch serial = stateOfGroups sr ch serial ([], []) := rfl

theorem initState_sim (sr ch : Int) (serial : Nat) :
    initState sr ch serial = stateOfGroups sr ch serial (groupInit sr ch) := by
  rw [initState, groupInit, emptyState_sim, addPacket_sim, flushPage_sim,
    addPacket_sim, flushPage_sim]

theorem foldl_sim (sr ch : Int) (serial : Nat) (ops : List MuxOp)
    (gp : List Group × List TracedPacket) :
    ops.foldl applyOp (stateOfGroups sr ch serial gp)
      = stateOfGroups sr ch serial (ops.foldl groupOp gp) := by
  induction ops generalizing gp with
  | nil => rfl
  | cons op ops ih =>
      rw [List.foldl_cons, List.foldl_cons, applyOp_sim, ih]

/-- The central simulation theorem: every reachable muxer state is the
rendering of its grouping mirror. -/
theorem runOps_sim (sr ch : Int) (serial : Nat) (ops : List MuxOp) :
    runOps sr ch serial ops
      = stateOfGroups sr ch serial (groupRun sr ch ops) := by
  rw [runOps, groupRun, initState_sim, foldl_sim]

/-! ### CRC facts -/

theorem xor_lt_two_pow {x y n : Nat} (hx : x < 2 ^ n) (hy : y < 2 ^ n) :
    x ^^^ y < 2 ^ n :=
  Nat.bitwise_lt hx hy

theorem crcStep_lt (c : Nat) : crcStep c < 2 ^ 32 := by
  rw [crcStep]
  split
  · exact xor_lt_two_pow (by norm_num) (Nat.mod_lt _ (by norm_num))
  · exact Nat.mod_lt _ (by norm_num)

theorem crcTableEntry_lt (n : Nat) : crcTableEntry n < 2 ^ 32 := by
  rw [crcTableEntry, show (8 : Nat) = 7 + 1 from rfl,
    Function.iterate_succ_apply']
  exact crcStep_lt _

theorem crcTable_getD_lt (i : Nat) : crcTable.getD i 0 < 2 ^ 32 := by
  rcases h : crcTable.get? i with _ | v
  · simp only [List.getD, ← List.get?_eq_getElem?, h, Option.getD_none]
    norm_num
  · have hv : v ∈ crcTable := List.get?_mem h
    obtain ⟨j, _, rfl⟩ := List.mem_map.mp hv
    simp only [List.getD, ← List.get?_eq_getElem?, h, Option.getD_some]
    exact crcTableEntry_lt j

theorem crcUpdate_lt (c b : Nat) : crcUpdate c b < 2 ^ 32 :=
  xor_lt_two_pow (Nat.mod_lt _ (by norm_num)) (crcTable_getD_lt _)

theorem calcCRCAux_lt (l : List Nat) (i c : Nat) (hc : c < 2 ^ 32) :
    calcCRCAux i l c < 2 ^ 32 := by
  induction l generalizing i c with
  | nil => exact hc
  | cons b rest ih =>
      rw [calcCRCAux]
      split <;> exact ih _ _ (crcUpdate_lt _ _)

theorem calculateCRC_lt (buffer : List Nat) : calculateCRC buffer < 2 ^ 32 :=
  calcCRCAux_lt buffer 0 0 (by norm_num)

theorem calcCRCAux_append (l₁ l₂ : List Nat) (i c : Nat) :
    calcCRCAux i (l₁ ++ l₂) c
      = calcCRCAux (i + l₁.length) l₂ (calcCRCAux i l₁ c) := by
  induction l₁ generalizing i c with
  | nil => simp [calcCRCAux]
  | cons b rest ih =>
      simp only [List.cons_append, calcCRCAux, List.length_cons,
        List.append_eq]
      rw [ih, show i + (rest.length + 1) = i + 1 + rest.length by omega]

/-- Outside the checksum-field offsets the loop body of `_calculateCRC` is a
plain CRC fold: region strictly below offset 22. -/
theorem calcCRCAux_low (l : List Nat) (i c : Nat) (h : i + l.length ≤ 22) :
    calcCRCAux i l c = l.foldl crcUpdate c := by
  induction l generalizing i c with
  | nil => rfl
  | cons b rest ih =>
      rw [calcCRCAux, List.foldl_cons, if_neg (by simp at h ⊢; omega)]
      exact ih _ _ (by simp at h ⊢; omega)

/-- Outside the checksum-field offsets the loop body of `_calculateCRC` is a
plain CRC fold: region strictly above offset 25. -/
theorem calcCRCAux_high (l : List Nat) (i c : Nat) (h : 25 < i) :
    calcCRCAux i l c = l.foldl crcUpdate c := by
  induction l generalizing i c with
  | nil => rfl
  | cons b rest ih =>
      rw [calcCRCAux, List.foldl_cons, if_neg (by omega)]
      exact ih _ _ (by omega)

/-- Over the four zero bytes at offsets 22–25, skipping and not skipping
agree, because the skipped input byte is zero anyway. -/
theorem calcCRCAux_zeros (c : Nat) :
    calcCRCAux 22 [0, 0, 0, 0] c = [0, 0, 0, 0].foldl crcUpdate c := by
  norm_num [calcCRCAux, List.foldl]

/-- On a buffer whose checksum field already holds zeros, `_calculateCRC`
computes the plain table-driven CRC of the whole buffer. -/
theorem calculateCRC_eq_crcOfBytes (pre rest : List Nat)
    (hpre : pre.length = 22) :
    calculateCRC (pre ++ [0, 0, 0, 0] ++ rest)
      = crcOfBytes (pre ++ [0, 0, 0, 0] ++ rest) := by
  rw [calculateCRC, crcOfBytes, List.append_assoc, calcCRCAux_append,
    calcCRCAux_append, List.foldl_append, List.foldl_append,
    calcCRCAux_low pre 0 _ (by omega), Nat.zero_add, hpre, calcCRCAux_zeros,
    calcCRCAux_high _ _ _ (by norm_num)]

/-! ### The lacing table -/

theorem lacingAux_eq (fuel : Nat) :
    ∀ size : Nat, size / 255 ≤ fuel →
      lacingAux fuel size = List.replicate (size / 255) 255 ++ [size % 255] := by
  induction fuel with
  | zero =>
      intro size h
      have h0 : size / 255 = 0 := Nat.le_zero.mp h
      have hlt : size < 255 := by omega
      rw [lacingAux, h0, Nat.mod_eq_of_lt hlt, List.replicate_zero,
        List.nil_append]
  | succ fuel ih =>
      intro size h
      rw [lacingAux]
      by_cases hge : 255 ≤ size
      · have h1 : size / 255 = (size - 255) / 255 + 1 := by omega
        have h2 : size % 255 = (size - 255) % 255 := by omega
        rw [if_pos hge, ih (size - 255) (by omega), h1, h2,
          List.replicate_succ, List.cons_append]
      · have h0 : size / 255 = 0 := Nat.div_eq_of_lt (by omega)
        rw [if_neg hge, h0, Nat.mod_eq_of_lt (by omega), List.replicate_zero,
          List.nil_append]

/-- P4 at the level of one packet: a packet of byte-length `L` contributes
`⌊L/255⌋` full 255-valued lacing bytes followed by exactly one byte holding
`L mod 255`. -/
theorem lacing_eq (L : Nat) :
    lacing L = List.replicate (L / 255) 255 ++ [L % 255] :=
  lacingAux_eq L L (Nat.div_le_self L 255)

theorem lacing_length (L : Nat) : (lacing L).length = L / 255 + 1 := by
  rw [lacing_eq]; simp

theorem segTableOf_length (sizes : List Nat) :
    (segTableOf sizes).length = segsOf sizes := by
  rw [segTableOf, segsOf, List.length_flatten, List.map_map]
  congr 1
  exact List.map_congr_left fun L _ => lacing_length L

theorem idHeaderBytes_length (sr ch : Int) :
    (idHeaderBytes sr ch).length = 19 := by
  simp [idHeaderBytes, le32]

theorem commentHeaderBytes_length : commentHeaderBytes.length = 37 := by
  simp [commentHeaderBytes, vendorBytes, le32]

/-! ### Reading fields back out of a serialized page -/

/-- The 4 capture-pattern bytes of a page. -/
def captureOf (p : List Nat) : List Nat := p.take 4

/-- The header-type flag byte of a page (offset 5). -/
def headerTypeOf (p : List Nat) : Nat := p.getD 5 0

/-- The granule position stored in a page, decoded little-endian from
offsets 6–13. -/
def granuleFieldOf (p : List Nat) : Nat := de64 ((p.drop 6).take 8)

/-- The page sequence number stored in a page, decoded little-endian from
offsets 18–21. -/
def seqFieldOf (p : List Nat) : Nat := de32 ((p.drop 18).take 4)

/-- The checksum stored in a page, decoded little-endian from
offsets 22–25. -/
def crcFieldOf (p : List Nat) : Nat := de32 ((p.drop 22).take 4)

/-- The segment-count byte of a page (offset 26). -/
def segCountByteOf (p : List Nat) : Nat := p.getD 26 0

/-- The page with its 4 checksum-field bytes (offsets 22–25) replaced by
zero — the buffer over which the checksum is recomputed. -/
def zeroCRCField (p : List Nat) : List Nat :=
  p.take 22 ++ [0, 0, 0, 0] ++ p.drop 26

theorem pagePre_length (seq : Nat) (isLast : Bool) (granule serial : Nat) :
    (pagePre seq isLast granule serial).length = 22 := by
  simp [pagePre, le64, le32]

/-- The buffer `flushPage` computes the CRC over: the page with a zero
placeholder in the checksum field. -/
def mkPageZero (seq : Nat) (isLast : Bool) (granule serial segCount : Nat)
    (sizes : List Nat) (packets : List (List Nat)) : List Nat :=
  pagePre seq isLast granule serial ++ [0, 0, 0, 0]
    ++ pageRest segCount sizes packets

theorem mkPage_capture (seq : Nat) (isLast : Bool)
    (granule serial segCount : Nat) (sizes : List Nat)
    (packets : List (List Nat)) :
    captureOf (mkPage seq isLast granule serial segCount sizes packets)
      = [0x4f, 0x67, 0x67, 0x53] := rfl

theorem mkPage_headerType (seq : Nat) (isLast : Bool)
    (granule serial segCount : Nat) (sizes : List Nat)
    (packets : List (List Nat)) :
    headerTypeOf (mkPage seq isLast granule serial segCount sizes packets)
      = (if seq = 0 then 0x02 else 0) ||| (if isLast then 0x04 else 0) := rfl

theorem mkPage_granuleBytes (seq : Nat) (isLast : Bool)
    (granule serial segCount : Nat) (sizes : List Nat)
    (packets : List (List Nat)) :
    (((mkPage seq isLast granule serial segCount sizes packets).drop 6).take 8)
      = le64 granule := rfl

theorem mkPage_granuleField (seq : Nat) (isLast : Bool)
    (granule serial segCount : Nat) (sizes : List Nat)
    (packets : List (List Nat)) :
    granuleFieldOf (mkPage seq isLast granule serial segCount sizes packets)
      = granule % 2 ^ 64 := by
  rw [granuleFieldOf, mkPage_granuleBytes, de64_le64]

theorem mkPage_seqBytes (seq : Nat) (isLast : Bool)
    (granule serial segCount : Nat) (sizes : List Nat)
    (packets : List (List Nat)) :
    (((mkPage seq isLast granule serial segCount sizes packets).drop 18).take 4)
      = le32 seq := rfl

theorem mkPage_seqField (seq : Nat) (isLast : Bool)
    (granule serial segCount : Nat) (sizes : List Nat)
    (packets : List (List Nat)) :
    seqFieldOf (mkPage seq isLast granule serial segCount sizes packets)
      = seq % 2 ^ 32 := by
  rw [seqFieldOf, mkPage_seqBytes, de32_le32]

theorem mkPage_crcBytes (seq : Nat) (isLast : Bool)
    (granule serial segCount : Nat) (sizes : List Nat)
    (packets : List (List Nat)) :
    (((mkPage seq isLast granule serial segCount sizes packets).drop 22).take 4)
      = le32 (calculateCRC
          (mkPageZero seq isLast granule serial segCount sizes packets)) := rfl

theorem mkPage_segCountByte (seq : Nat) (isLast : Bool)
    (granule serial segCount : Nat) (sizes : List Nat)
    (packets : List (List Nat)) :
    segCountByteOf (mkPage seq isLast granule serial segCount sizes packets)
      = segCount % 256 := rfl

theorem mkPage_zeroCRCField (seq : Nat) (isLast : Bool)
    (granule serial segCount : Nat) (sizes : List Nat)
    (packets : List (List Nat)) :
    zeroCRCField (mkPage seq isLast granule serial segCount sizes packets)
      = mkPageZero seq isLast granule serial segCount sizes packets := rfl

theorem mkPage_length (seq : Nat) (isLast : Bool)
    (granule serial segCount : Nat) (sizes : List Nat)
    (packets : List (List Nat)) :
    (mkPage seq isLast granule serial segCount sizes packets).length
      = 27 + (segTableOf sizes).length + packets.flatten.length := by
  simp [mkPage, pageRest, pagePre, le64, le32]
  omega

/-- The two header-type bits written by `flushPage`:
bit 1 (0x02) records `pageSequence = 0`, bit 2 (0x04) records `isLast`. -/
theorem flags_testBits (q : Nat) (b : Bool) :
    ((((if q = 0 then 0x02 else 0) ||| (if b then 0x04 else 0)) :
        Nat).testBit 1 = true ↔ q = 0) ∧
    ((((if q = 0 then 0x02 else 0) ||| (if b then 0x04 else 0)) :
        Nat).testBit 2 = true ↔ b = true) := by
  by_cases hq : q = 0 <;> cases b <;> simp [hq] <;> decide

/-! ### Locating pages inside `renderPages` -/

theorem renderPages_get? (serial : Nat) :
    ∀ (gs : List Group) (seq acc j : Nat) (b : Bool) (g : List TracedPacket),
      gs.get? j = some (b, g) →
      (renderPages serial seq acc gs).get? j
        = some (mkPage (seq + j) b (acc + groupsSamples (gs.take (j + 1)))
            serial (segsOf (sizesOf g)) (sizesOf g) (datasOf g)) := by
  intro gs
  induction gs with
  | nil => intro seq acc j b g h; simp at h
  | cons hd tl ih =>
      intro seq acc j b g h
      obtain ⟨bf, gg⟩ := hd
      cases j with
      | zero =>
          simp only [List.get?_cons_zero, Option.some.injEq] at h
          injection h with h1 h2
          subst h1; subst h2
          rw [renderPages, List.get?_cons_zero]
          simp [groupsSamples, List.take_succ_cons, List.take_zero]
      | succ j =>
          simp only [List.get?_cons_succ] at h
          rw [renderPages, List.get?_cons_succ, ih _ _ j b g h]
          have h1 : seq + 1 + j = seq + (j + 1) := by omega
          have h2 : acc + sumSamples gg + groupsSamples (tl.take (j + 1))
              = acc + groupsSamples (((bf, gg) :: tl).take (j + 1 + 1)) := by
            simp [groupsSamples, List.take]
            omega
          rw [h1, h2]

/-- Every page in a rendering is a serialized page of some group. -/
theorem mem_renderPages (serial : Nat) {p : List Nat} :
    ∀ {gs : List Group} {seq acc : Nat}, p ∈ renderPages serial seq acc gs →
      ∃ (q : Nat) (bl : Bool) (gr : Nat) (g : List TracedPacket),
        (bl, g) ∈ gs ∧
        p = mkPage q bl gr serial (segsOf (sizesOf g)) (sizesOf g)
              (datasOf g) := by
  intro gs
  induction gs with
  | nil => intro seq acc h; simp [renderPages] at h
  | cons hd tl ih =>
      intro seq acc h
      obtain ⟨bf, gg⟩ := hd
      rw [renderPages, List.mem_cons] at h
      rcases h with h | h
      · exact ⟨seq, bf, acc + sumSamples gg, gg, List.mem_cons_self _ _, h⟩
      · obtain ⟨q, bl, gr, g, hmem, hp⟩ := ih h
        exact ⟨q, bl, gr, g, List.mem_cons_of_mem _ hmem, hp⟩

/-- P5 at the level of a single serialized page: recomputing the plain
table-driven CRC over the page with its checksum field zeroed yields the
value stored in the checksum field. -/
theorem mkPage_crc_recompute (seq : Nat) (isLast : Bool)
    (granule serial segCount : Nat) (sizes : List Nat)
    (packets : List (List Nat)) :
    crcOfBytes (zeroCRCField
        (mkPage seq isLast granule serial segCount sizes packets))
      = crcFieldOf (mkPage seq isLast granule serial segCount sizes packets) := by
  rw [mkPage_zeroCRCField, crcFieldOf, mkPage_crcBytes, de32_le32,
    Nat.mod_eq_of_lt (calculateCRC_lt _), mkPageZero,
    calculateCRC_eq_crcOfBytes _ _ (pagePre_length seq isLast granule serial)]

/-! ### Run-level bookkeeping -/

/-- The `samples` argument one public call passes to `addPacket`
(a flush passes none). -/
def opSamples : MuxOp → Nat
  | .packet _ n => n
  | .flush _ => 0

/-- Sum of all `samples` arguments across a sequence of calls. -/
def opsSamples (ops : List MuxOp) : Nat := (ops.map opSamples).sum

/-- The packets (with their sample counts) submitted by a sequence of
calls, in submission order. -/
def packetsOf (ops : List MuxOp) : List TracedPacket :=
  ops.filterMap fun op =>
    match op with
    | .packet d n => some (d, n)
    | .flush _ => none

theorem opsSamples_append (l₁ l₂ : List MuxOp) :
    opsSamples (l₁ ++ l₂) = opsSamples l₁ + opsSamples l₂ := by
  simp [opsSamples]

theorem flushPage_granule (b : Bool) (s : MuxerState) :
    (flushPage b s).granulePosition = s.granulePosition := by
  rw [flushPage]; split <;> rfl

theorem applyOp_granule (s : MuxerState) (op : MuxOp) :
    (applyOp s op).granulePosition = s.granulePosition + opSamples op := by
  cases op with
  | packet d n =>
      show (acceptPacket d n _).granulePosition = _
      rw [acceptPacket]
      split
      · rw [flushPage_granule]; rfl
      · rfl
  | flush b => rw [applyOp, flushPage_granule, opSamples, Nat.add_zero]

theorem foldl_granule (ops : List MuxOp) :
    ∀ s : MuxerState, (ops.foldl applyOp s).granulePosition
      = s.granulePosition + opsSamples ops := by
  induction ops with
  | nil => intro s; simp [opsSamples]
  | cons op ops ih =>
      intro s
      rw [List.foldl_cons, ih, applyOp_granule]
      simp [opsSamples]
      omega

/-- The constructor's grouping state: two one-packet header groups, both
from non-terminal flushes, and an empty pending buffer. -/
theorem groupInit_eq (sr ch : Int) :
    groupInit sr ch = ([(false, [(idHeaderBytes sr ch, 0)]),
      (false, [(commentHeaderBytes, 0)])], []) := by
  simp [groupInit, groupAdd, groupFlush, segsOf, sizesOf,
    idHeaderBytes_length, commentHeaderBytes_length]

theorem initState_granule (sr ch : Int) (serial : Nat) :
    (initState sr ch serial).granulePosition = 0 := by
  rw [initState_sim, groupInit_eq]
  rfl

/-- P3's counter half: after any trace, `granulePosition` is the exact sum
of all `samples` arguments (the header packets contribute 0). -/
theorem runOps_granule (sr ch : Int) (serial : Nat) (ops : List MuxOp) :
    (runOps sr ch serial ops).granulePosition = opsSamples ops := by
  rw [runOps, foldl_granule, initState_granule, Nat.zero_add]

theorem runOps_serial (sr ch : Int) (serial : Nat) (ops : List MuxOp) :
    (runOps sr ch serial ops).serial = serial := by
  rw [runOps_sim]; rfl

theorem acceptPacket_pages (d : List Nat) (n : Nat) (s : MuxerState) :
    (acceptPacket d n s).pages = s.pages := rfl

theorem flushPage_pages (b : Bool) (s : MuxerState) :
    (flushPage b s).pages = s.pages ∨
      (flushPage b s).pages = s.pages ++
        [mkPage s.pageSequence b s.granulePosition s.serial
          s.segmentsInBuffer s.packetSizes s.packetBuffer] := by
  rw [flushPage]
  split
  · left; rfl
  · right; rfl

/-- One call either leaves `pages` unchanged or appends exactly the page
serialized from the pre-state (with the pre-state's granule position). -/
theorem applyOp_pages (s : MuxerState) (op : MuxOp) :
    (applyOp s op).pages = s.pages ∨
      ∃ b : Bool, (applyOp s op).pages = s.pages ++
        [mkPage s.pageSequence b s.granulePosition s.serial
          s.segmentsInBuffer s.packetSizes s.packetBuffer] := by
  cases op with
  | packet d n =>
      have hs : applyOp s (.packet d n) = acceptPacket d n
          (if 255 < s.segmentsInBuffer + (d.length / 255 + 1) then
            flushPage false s else s) := rfl
      rw [hs, acceptPacket_pages]
      split
      · rcases flushPage_pages false s with h | h
        · left; exact h
        · right; exact ⟨false, h⟩
      · left; rfl
  | flush b =>
      rw [applyOp]
      rcases flushPage_pages b s with h | h
      · left; exact h
      · right; exact ⟨b, h⟩

theorem applyOp_pages_extend (s : MuxerState) (op : MuxOp) :
    s.pages <+: (applyOp s op).pages := by
  rcases applyOp_pages s op with h | ⟨b, h⟩
  · rw [h]
  · rw [h]; exact ⟨_, rfl⟩

theorem foldl_pages_extend (ops : List MuxOp) :
    ∀ s : MuxerState, s.pages <+: (ops.foldl applyOp s).pages := by
  induction ops with
  | nil => intro s; exact List.prefix_rfl
  | cons op ops ih =>
      intro s
      exact (applyOp_pages_extend s op).trans (ih (applyOp s op))

theorem runOps_append (sr ch : Int) (serial : Nat) (l₁ l₂ : List MuxOp) :
    runOps sr ch serial (l₁ ++ l₂)
      = l₂.foldl applyOp (runOps sr ch serial l₁) := by
  rw [runOps, runOps, List.foldl_append]

/-- Pages already emitted after a prefix of the trace are (literally) the
first pages of the full run. -/
theorem runOps_take_pages_extend (sr ch : Int) (serial : Nat)
    (ops : List MuxOp) (k : Nat) :
    (runOps sr ch serial (ops.take k)).pages <+:
      (runOps sr ch serial ops).pages := by
  have h := foldl_pages_extend (ops.drop k) (runOps sr ch serial (ops.take k))
  rw [← runOps_append, List.take_append_drop] at h
  exact h

theorem IsPrefix.getD_eq {l₁ l₂ : List (List Nat)} (h : l₁ <+: l₂) {j : Nat}
    (hj : j < l₁.length) : l₂.getD j [] = l₁.getD j [] := by
  obtain ⟨t, rfl⟩ := h
  simp only [List.getD]
  rw [List.get?_append hj]

/-! ### Sequence-number and granule fields across a rendering -/

theorem renderPages_map_seqField (serial : Nat) :
    ∀ (gs : List Group) (seq acc : Nat), seq + gs.length ≤ 2 ^ 32 →
      (renderPages serial seq acc gs).map seqFieldOf
        = List.range' seq gs.length := by
  intro gs
  induction gs with
  | nil => intro seq acc _; rfl
  | cons g tl ih =>
      intro seq acc h
      obtain ⟨b, pkts⟩ := g
      rw [renderPages, List.map_cons, mkPage_seqField, List.length_cons,
        List.range'_succ, Nat.mod_eq_of_lt (by simp at h; omega),
        ih (seq + 1) _ (by simp at h; omega)]

/-- The cumulative granule positions a list of groups receives, starting
from `acc`. -/
def cumGranules : Nat → List Group → List Nat
  | _, [] => []
  | acc, (_, g) :: gs => (acc + sumSamples g) :: cumGranules (acc + sumSamples g) gs

theorem renderPages_map_granuleField (serial : Nat) :
    ∀ (gs : List Group) (seq acc : Nat), acc + groupsSamples gs < 2 ^ 64 →
      (renderPages serial seq acc gs).map granuleFieldOf
        = cumGranules acc gs := by
  intro gs
  induction gs with
  | nil => intro seq acc _; rfl
  | cons g tl ih =>
      intro seq acc h
      obtain ⟨b, pkts⟩ := g
      have hb : groupsSamples ((b, pkts) :: tl)
          = sumSamples pkts + groupsSamples tl := by simp [groupsSamples]
      rw [hb] at h
      rw [renderPages, List.map_cons, mkPage_granuleField, cumGranules,
        Nat.mod_eq_of_lt (by omega), ih (seq + 1) _ (by omega)]

theorem cumGranules_head_ge (acc : Nat) (gs : List Group) :
    ∀ x ∈ (cumGranules acc gs).head?, acc ≤ x := by
  cases gs with
  | nil => intro x hx; simp [cumGranules] at hx
  | cons g tl =>
      obtain ⟨b, pkts⟩ := g
      intro x hx
      simp only [cumGranules, List.head?_cons, Option.mem_def,
        Option.some.injEq] at hx
      omega

/-- Cumulative granule positions are non-decreasing. -/
theorem cumGranules_chain (gs : List Group) :
    ∀ acc : Nat, List.Chain' (· ≤ ·) (cumGranules acc gs) := by
  induction gs with
  | nil => intro acc; simp [cumGranules]
  | cons g tl ih =>
      intro acc
      obtain ⟨b, pkts⟩ := g
      rw [cumGranules, List.chain'_cons']
      exact ⟨cumGranules_head_ge _ tl, ih _⟩

/-! ### Which packets end up where -/

/-- All packets a grouping state has accepted: those already serialized
into groups, then the pending ones. -/
def flatPackets (gp : List Group × List TracedPacket) : List TracedPacket :=
  (gp.1.map Prod.snd).flatten ++ gp.2

theorem flatPackets_groupFlush (b : Bool)
    (gp : List Group × List TracedPacket) :
    flatPackets (groupFlush b gp) = flatPackets gp := by
  rw [groupFlush]
  split
  · rfl
  · simp [flatPackets]

theorem flatPackets_groupAdd (d : List Nat) (n : Nat)
    (gp : List Group × List TracedPacket) :
    flatPackets (groupAdd d n gp) = flatPackets gp ++ [(d, n)] := by
  simp only [groupAdd]
  by_cases h : 255 < segsOf (sizesOf gp.2) + (d.length / 255 + 1)
  · rw [if_pos h]
    have hp : flatPackets ((groupFlush false gp).1,
        (groupFlush false gp).2 ++ [(d, n)])
        = flatPackets (groupFlush false gp) ++ [(d, n)] := by
      rcases groupFlush false gp with ⟨a, c⟩
      simp [flatPackets]
    rw [hp, flatPackets_groupFlush]
  · rw [if_neg h]
    rcases gp with ⟨gs, pend⟩
    simp [flatPackets]

theorem flatPackets_groupOp (gp : List Group × List TracedPacket)
    (op : MuxOp) :
    flatPackets (groupOp gp op) = flatPackets gp ++ packetsOf [op] := by
  cases op with
  | packet d n =>
      rw [show packetsOf [MuxOp.packet d n] = [(d, n)] from rfl]
      exact flatPackets_groupAdd d n gp
  | flush b =>
      rw [show packetsOf [MuxOp.flush b] = [] from rfl, List.append_nil]
      exact flatPackets_groupFlush b gp

theorem flatPackets_foldl (ops : List MuxOp) :
    ∀ gp : List Group × List TracedPacket,
      flatPackets (ops.foldl groupOp gp) = flatPackets gp ++ packetsOf ops := by
  induction ops with
  | nil => intro gp; simp [packetsOf]
  | cons op ops ih =>
      intro gp
      rw [List.foldl_cons, ih, flatPackets_groupOp,
        show packetsOf (op :: ops) = packetsOf [op] ++ packetsOf ops from by
          simp [packetsOf, List.filterMap_cons]; split <;> simp_all,
        List.append_assoc]

/-- Every packet ever submitted — the two header packets first, then the
trace's packets in order — is accounted for in the grouping state. -/
theorem flatPackets_groupRun (sr ch : Int) (ops : List MuxOp) :
    flatPackets (groupRun sr ch ops)
      = [(idHeaderBytes sr ch, 0), (commentHeaderBytes, 0)] ++ packetsOf ops := by
  rw [groupRun, flatPackets_foldl, groupInit_eq]
  rfl

theorem groupsSamples_eq_flat (gs : List Group) :
    groupsSamples gs = sumSamples ((gs.map Prod.snd).flatten) := by
  induction gs with
  | nil => rfl
  | cons g tl ih =>
      obtain ⟨b, pkts⟩ := g
      rw [show groupsSamples ((b, pkts) :: tl)
          = sumSamples pkts + groupsSamples tl from by simp [groupsSamples],
        ih, List.map_cons, List.flatten_cons, sumSamples_append]

/-! ### The 255-segment budget -/

/-- A call stays within the per-packet segment budget: its packet needs at
most 255 lacing segments (about 64,770 bytes); flushes always qualify. -/
def OpOK : MuxOp → Prop
  | .packet d _ => d.length / 255 + 1 ≤ 255
  | .flush _ => True

instance : DecidablePred OpOK := fun op =>
  match op with
  | .packet d _ => inferInstanceAs (Decidable (_ ≤ _))
  | .flush _ => inferInstanceAs (Decidable True)

/-- The pending buffer and every serialized group are within the
255-segment page budget. -/
def BoundedGP (gp : List Group × List TracedPacket) : Prop :=
  segsOf (sizesOf gp.2) ≤ 255 ∧ ∀ g ∈ gp.1, segsOf (sizesOf g.2) ≤ 255

theorem groupFlush_false_pend (gp : List Group × List TracedPacket) :
    (groupFlush false gp).2 = [] := by
  rw [groupFlush]
  split
  · rename_i hg; exact hg.1
  · rfl

theorem boundedGP_groupFlush (b : Bool) (gp : List Group × List TracedPacket)
    (h : BoundedGP gp) : BoundedGP (groupFlush b gp) := by
  rw [groupFlush]
  split
  · exact h
  · refine ⟨by simp [sizesOf, segsOf], ?_⟩
    intro g hg
    rcases List.mem_append.mp hg with hg | hg
    · exact h.2 g hg
    · simp only [List.mem_singleton] at hg
      subst hg
      exact h.1

theorem boundedGP_groupAdd (d : List Nat) (n : Nat)
    (gp : List Group × List TracedPacket) (h : BoundedGP gp)
    (hd : d.length / 255 + 1 ≤ 255) : BoundedGP (groupAdd d n gp) := by
  simp only [groupAdd]
  by_cases hc : 255 < segsOf (sizesOf gp.2) + (d.length / 255 + 1)
  · rw [if_pos hc]
    have h1 := boundedGP_groupFlush false gp h
    refine ⟨?_, h1.2⟩
    rw [groupFlush_false_pend]
    simp only [List.nil_append, sizesOf, List.map_cons, List.map_nil, segsOf,
      List.sum_cons, List.sum_nil]
    omega
  · rw [if_neg hc]
    refine ⟨?_, h.2⟩
    have hs : sizesOf (gp.2 ++ [(d, n)]) = sizesOf gp.2 ++ [d.length] := by
      simp [sizesOf]
    rw [hs, segsOf_append,
      show segsOf [d.length] = d.length / 255 + 1 from by simp [segsOf]]
    omega

theorem boundedGP_groupOp (gp : List Group × List TracedPacket) (op : MuxOp)
    (h : BoundedGP gp) (hop : OpOK op) : BoundedGP (groupOp gp op) := by
  cases op with
  | packet d n => exact boundedGP_groupAdd d n gp h hop
  | flush b => exact boundedGP_groupFlush b gp h

theorem boundedGP_init (sr ch : Int) : BoundedGP (groupInit sr ch) := by
  rw [groupInit_eq]
  refine ⟨by simp [sizesOf, segsOf], ?_⟩
  intro g hg
  simp only [List.mem_cons, List.not_mem_nil, or_false] at hg
  rcases hg with rfl | rfl <;>
    simp [sizesOf, segsOf, idHeaderBytes_length, commentHeaderBytes_length]

theorem boundedGP_foldl (ops : List MuxOp) :
    ∀ gp : List Group × List TracedPacket, BoundedGP gp →
      (∀ op ∈ ops, OpOK op) → BoundedGP (ops.foldl groupOp gp) := by
  induction ops with
  | nil => intro gp h _; exact h
  | cons op ops ih =>
      intro gp h hops
      rw [List.foldl_cons]
      exact ih _ (boundedGP_groupOp gp op h (hops op (List.mem_cons_self _ _)))
        fun o ho => hops o (List.mem_cons_of_mem _ ho)

/-- Every reachable grouping state of a trace of budget-respecting calls is
within the 255-segment budget. -/
theorem boundedGP_run (sr ch : Int) (ops : List MuxOp)
    (hops : ∀ op ∈ ops, OpOK op) : BoundedGP (groupRun sr ch ops) :=
  boundedGP_foldl ops _ (boundedGP_init sr ch) hops

/-! ## The claims -/

/-- C1: for every page emitted over any trace of public calls, recomputing
the checksum (the 32-bit CRC with polynomial 0x04C11DB7, processed
most-significant-bit first, zero-initialized, via the 256-entry table
`crcTable`) over the full page buffer with the 4 checksum-field bytes at
offsets 22–25 zeroed reproduces exactly the 32-bit little-endian value
stored at offsets 22–25 of that page. -/
theorem checksum_correct (sr ch : Int) (serial : Nat) (ops : List MuxOp)
    (p : List Nat) (hp : p ∈ (runOps sr ch serial ops).pages) :
    crcOfBytes (zeroCRCField p) = crcFieldOf p := by
  rw [runOps_sim] at hp
  have hp' : p ∈ renderPages serial 0 0 (groupRun sr ch ops).1 := hp
  obtain ⟨q, bl, gr, g, _, rfl⟩ := mem_renderPages serial hp'
  exact mkPage_crc_recompute q bl gr serial _ _ _

set_option maxRecDepth 10000

theorem checksum_correct_witness :
    ((initState 48000 2 0).pages.getD 0 []) ∈ (runOps 48000 2 0 []).pages ∧
    crcOfBytes (zeroCRCField ((initState 48000 2 0).pages.getD 0 []))
      = crcFieldOf ((initState 48000 2 0).pages.getD 0 []) :=
  ⟨by decide, checksum_correct 48000 2 0 [] _ (by decide)⟩

/-- C2 counterexample: submitting a single 65025-byte packet (256 lacing
segments) produces a page whose segment-count byte is `256 % 256 = 0`,
while the lacing entries the packet contributes number 256 — the
segment-count byte does not equal the number of entries. -/
theorem segcount_byte_counterexample :
    segCountByteOf ((runOps 48000 2 0
        [.packet (List.replicate 65025 0) 0, .flush true]).pages.getD 2 []) = 0
    ∧ (lacing (List.replicate 65025 (0 : Nat)).length).length = 256
    ∧ (0 : Nat) ≠ 256 := by
  have key : ∀ d : List Nat, d.length = 65025 →
      segCountByteOf ((runOps 48000 2 0
        [.packet d 0, .flush true]).pages.getD 2 []) = 0 := by
    intro d hd
    have hrun : groupRun 48000 2 [.packet d 0, .flush true]
        = ([(false, [(idHeaderBytes 48000 2, 0)]),
            (false, [(commentHeaderBytes, 0)]),
            (true, [(d, 0)])], []) := by
      simp [groupRun, groupInit_eq, groupOp, groupAdd, groupFlush, segsOf,
        sizesOf, hd]
    rw [runOps_sim, hrun]
    have hpages : (stateOfGroups 48000 2 0
        ([(false, [(idHeaderBytes 48000 2, 0)]),
          (false, [(commentHeaderBytes, 0)]),
          (true, [(d, 0)])], [])).pages.getD 2 []
        = mkPage 2 true 0 0 (segsOf (sizesOf [(d, 0)])) (sizesOf [(d, 0)])
            (datasOf [(d, 0)]) := by
      simp [stateOfGroups, renderPages, List.getD, sumSamples, groupsSamples]
    rw [hpages, mkPage_segCountByte]
    simp [segsOf, sizesOf, hd]
  refine ⟨key _ ?_, ?_, by norm_num⟩
  · rw [List.length_replicate]
  · rw [List.length_replicate, lacing_length]

/-- C2 (amended: the segment-count byte equals the number of lacing
entries only modulo 256 — exactly whenever the page carries at most 255
segments): a packet of byte-length `L` contributes `⌊L/255⌋` entries of
value 255 followed by exactly one entry of value `L mod 255` (also when
`L` is a multiple of 255 and when `L = 0`), and every emitted page's
segment-count byte is the number of its lacing entries reduced mod 256. -/
theorem lacing_segcount (sr ch : Int) (serial : Nat) (ops : List MuxOp) :
    (∀ L : Nat, lacing L = List.replicate (L / 255) 255 ++ [L % 255]) ∧
    (∀ p ∈ (runOps sr ch serial ops).pages,
      ∃ (q : Nat) (bl : Bool) (gr : Nat) (g : List TracedPacket),
        p = mkPage q bl gr serial (segsOf (sizesOf g)) (sizesOf g) (datasOf g)
        ∧ segCountByteOf p = (segTableOf (sizesOf g)).length % 256) := by
  refine ⟨lacing_eq, ?_⟩
  intro p hp
  rw [runOps_sim] at hp
  have hp' : p ∈ renderPages serial 0 0 (groupRun sr ch ops).1 := hp
  obtain ⟨q, bl, gr, g, _, rfl⟩ := mem_renderPages serial hp'
  exact ⟨q, bl, gr, g, rfl, by rw [mkPage_segCountByte, segTableOf_length]⟩

theorem lacing_segcount_witness :
    lacing 510 = List.replicate (510 / 255) 255 ++ [510 % 255] :=
  (lacing_segcount 48000 2 0 []).1 510

/-- C3: along any trace whose packets each fit in 255 segments, the pending
segment count never exceeds 255 after any call; a packet that would push
the total beyond 255 makes `addPacket` flush the current buffer as a
non-terminal page before accepting it; and every emitted page carries at
most 255 segments (its segment-count byte holding that exact count). -/
theorem segment_budget (sr ch : Int) (serial : Nat) (ops : List MuxOp)
    (hops : ∀ op ∈ ops, OpOK op) :
    (∀ k : Nat, (runOps sr ch serial (ops.take k)).segmentsInBuffer ≤ 255) ∧
    (∀ (d : List Nat) (n : Nat) (s : MuxerState),
      255 < s.segmentsInBuffer + (d.length / 255 + 1) →
      addPacket d n s = acceptPacket d n (flushPage false s)) ∧
    (∀ p ∈ (runOps sr ch serial ops).pages,
      ∃ (q : Nat) (bl : Bool) (gr : Nat) (g : List TracedPacket),
        p = mkPage q bl gr serial (segsOf (sizesOf g)) (sizesOf g) (datasOf g)
        ∧ segsOf (sizesOf g) ≤ 255
        ∧ segCountByteOf p = segsOf (sizesOf g)) := by
  refine ⟨?_, ?_, ?_⟩
  · intro k
    rw [runOps_sim]
    exact (boundedGP_run sr ch (ops.take k)
      fun op hop => hops op (List.take_subset k ops hop)).1
  · intro d n s h
    simp only [addPacket]
    rw [if_pos h]
  · intro p hp
    rw [runOps_sim] at hp
    have hp' : p ∈ renderPages serial 0 0 (groupRun sr ch ops).1 := hp
    obtain ⟨q, bl, gr, g, hmem, rfl⟩ := mem_renderPages serial hp'
    have hb : segsOf (sizesOf g) ≤ 255 :=
      (boundedGP_run sr ch ops hops).2 (bl, g) hmem
    exact ⟨q, bl, gr, g, rfl, hb,
      by rw [mkPage_segCountByte, Nat.mod_eq_of_lt (by omega)]⟩

theorem segment_budget_witness :
    OpOK (MuxOp.packet (List.replicate 300 7) 960) ∧
    (runOps 48000 2 0
      ([MuxOp.packet (List.replicate 300 7) 960].take 1)).segmentsInBuffer
      ≤ 255 :=
  ⟨by decide, (segment_budget 48000 2 0 _ (by decide)).1 1⟩

/-- C4: as long as the total sample count fits the unsigned 64-bit granule
field, the granule-position fields of the emitted pages are non-decreasing
in emission order; the granule counter always equals the exact cumulative
sum of the `samples` arguments (header packets contribute 0); and every
page emitted while processing call `k + 1` stores as its granule position
exactly the cumulative sum of the `samples` arguments of the first `k`
calls (the serialized packets). -/
theorem granule_monotone (sr ch : Int) (serial : Nat) (ops : List MuxOp)
    (hb : opsSamples ops < 2 ^ 64) :
    List.Chain' (· ≤ ·)
      ((runOps sr ch serial ops).pages.map granuleFieldOf) ∧
    (runOps sr ch serial ops).granulePosition = opsSamples ops ∧
    (∀ k j : Nat, (runOps sr ch serial (ops.take k)).pages.length ≤ j →
      j < (runOps sr ch serial (ops.take (k + 1))).pages.length →
      granuleFieldOf ((runOps sr ch serial ops).pages.getD j [])
        = opsSamples (ops.take k)) := by
  refine ⟨?_, runOps_granule sr ch serial ops, ?_⟩
  · have htot : groupsSamples (groupRun sr ch ops).1
        + sumSamples (groupRun sr ch ops).2 = opsSamples ops := by
      have h := runOps_granule sr ch serial ops
      rw [runOps_sim] at h
      exact h
    rw [runOps_sim]
    have hpages : (stateOfGroups sr ch serial (groupRun sr ch ops)).pages
        = renderPages serial 0 0 (groupRun sr ch ops).1 := rfl
    rw [hpages, renderPages_map_granuleField serial _ 0 0 (by omega)]
    exact cumGranules_chain _ 0
  · intro k j hjk hjk1
    by_cases hk : k < ops.length
    · have hsucc : ops.take (k + 1) = ops.take k ++ [ops.get ⟨k, hk⟩] := by
        rw [List.take_succ, List.getElem?_eq_getElem hk]
        rfl
      have hrun1 : runOps sr ch serial (ops.take (k + 1))
          = applyOp (runOps sr ch serial (ops.take k)) (ops.get ⟨k, hk⟩) := by
        rw [hsucc, runOps_append]
        rfl
      rcases applyOp_pages (runOps sr ch serial (ops.take k))
          (ops.get ⟨k, hk⟩) with hpg | ⟨b, hpg⟩
      · rw [hrun1, hpg] at hjk1
        omega
      · rw [hrun1, hpg] at hjk1
        rw [List.length_append, List.length_singleton] at hjk1
        have hj : j = (runOps sr ch serial (ops.take k)).pages.length := by
          omega
        have hpre := runOps_take_pages_extend sr ch serial ops (k + 1)
        have hjlt : j < (runOps sr ch serial (ops.take (k + 1))).pages.length := by
          rw [hrun1, hpg, List.length_append, List.length_singleton]
          omega
        rw [IsPrefix.getD_eq hpre hjlt, hrun1, hpg, hj]
        have hget : ((runOps sr ch serial (ops.take k)).pages ++
            [mkPage (runOps sr ch serial (ops.take k)).pageSequence b
              (runOps sr ch serial (ops.take k)).granulePosition
              (runOps sr ch serial (ops.take k)).serial
              (runOps sr ch serial (ops.take k)).segmentsInBuffer
              (runOps sr ch serial (ops.take k)).packetSizes
              (runOps sr ch serial (ops.take k)).packetBuffer]).getD
            (runOps sr ch serial (ops.take k)).pages.length []
            = mkPage (runOps sr ch serial (ops.take k)).pageSequence b
              (runOps sr ch serial (ops.take k)).granulePosition
              (runOps sr ch serial (ops.take k)).serial
              (runOps sr ch serial (ops.take k)).segmentsInBuffer
              (runOps sr ch serial (ops.take k)).packetSizes
              (runOps sr ch serial (ops.take k)).packetBuffer := by
          simp only [List.getD]
          rw [List.get?_append_right (le_refl _), Nat.sub_self]
          rfl
        rw [hget, mkPage_granuleField, runOps_granule]
        have hle : opsSamples (ops.take k) ≤ opsSamples ops := by
          conv_rhs => rw [← List.take_append_drop k ops]
          rw [opsSamples_append]
          omega
        omega
    · exfalso
      have h1 : ops.take k = ops := List.take_of_length_le (by omega)
      have h2 : ops.take (k + 1) = ops := List.take_of_length_le (by omega)
      rw [h1] at hjk
      rw [h2] at hjk1
      omega

theorem granule_monotone_witness :
    opsSamples [MuxOp.packet [7] 960] < 2 ^ 64 ∧
    List.Chain' (· ≤ ·)
      ((runOps 48000 2 0 [MuxOp.packet [7] 960]).pages.map granuleFieldOf) :=
  ⟨by decide, (granule_monotone 48000 2 0 [MuxOp.packet [7] 960]
    (by decide)).1⟩

/-- C5: a muxer instance that has emitted `N` pages over any trace (the
two header pages included) wrote page-sequence-number fields that are
exactly `0, 1, …, N−1` in emission order — strictly increasing, gapless,
starting at 0 — as long as `N` fits the 32-bit sequence field. -/
theorem sequence_numbers (sr ch : Int) (serial : Nat) (ops : List MuxOp)
    (hN : (runOps sr ch serial ops).pages.length ≤ 2 ^ 32) :
    (runOps sr ch serial ops).pages.map seqFieldOf
      = List.range (runOps sr ch serial ops).pages.length := by
  rw [runOps_sim] at hN ⊢
  have hpages : (stateOfGroups sr ch serial (groupRun sr ch ops)).pages
      = renderPages serial 0 0 (groupRun sr ch ops).1 := rfl
  rw [hpages] at hN ⊢
  rw [renderPages_length] at hN ⊢
  rw [renderPages_map_seqField serial _ 0 0 (by omega),
    List.range_eq_range']

theorem sequence_numbers_witness :
    (runOps 48000 2 0 []).pages.length ≤ 2 ^ 32 ∧
    (runOps 48000 2 0 []).pages.map seqFieldOf
      = List.range (runOps 48000 2 0 []).pages.length :=
  ⟨by decide, sequence_numbers 48000 2 0 [] (by decide)⟩

/-- C6: every emitted page starts with the capture pattern `OggS`; its
header-type bit 0x02 is set iff it is the first page the instance emitted
(index 0, the identification-header page); and a flush emits a page with
bit 0x04 set iff that flush is terminal. -/
theorem page_flags (sr ch : Int) (serial : Nat) (ops : List MuxOp) :
    (∀ p ∈ (runOps sr ch serial ops).pages,
      captureOf p = [0x4f, 0x67, 0x67, 0x53]) ∧
    (∀ j : Nat, j < (runOps sr ch serial ops).pages.length →
      ((headerTypeOf ((runOps sr ch serial ops).pages.getD j [])).testBit 1
        = true ↔ j = 0)) ∧
    (∀ (s : MuxerState) (b : Bool), ¬(s.packetBuffer = [] ∧ b = false) →
      ∃ p, (flushPage b s).pages = s.pages ++ [p] ∧
        ((headerTypeOf p).testBit 2 = true ↔ b = true)) := by
  refine ⟨?_, ?_, ?_⟩
  · intro p hp
    rw [runOps_sim] at hp
    have hp' : p ∈ renderPages serial 0 0 (groupRun sr ch ops).1 := hp
    obtain ⟨q, bl, gr, g, _, rfl⟩ := mem_renderPages serial hp'
    exact mkPage_capture q bl gr serial _ _ _
  · intro j hj
    rw [runOps_sim] at hj ⊢
    have hpages : (stateOfGroups sr ch serial (groupRun sr ch ops)).pages
        = renderPages serial 0 0 (groupRun sr ch ops).1 := rfl
    rw [hpages] at hj ⊢
    rw [renderPages_length] at hj
    obtain ⟨b, g⟩ : Group := (groupRun sr ch ops).1.get ⟨j, hj⟩
    have hget := List.get?_eq_get hj
    rcases hx : (groupRun sr ch ops).1.get ⟨j, hj⟩ with ⟨bl, g⟩
    rw [hx] at hget
    rw [show (renderPages serial 0 0 (groupRun sr ch ops).1).getD j []
        = mkPage (0 + j) bl (0 + groupsSamples ((groupRun sr ch ops).1.take
            (j + 1))) serial (segsOf (sizesOf g)) (sizesOf g) (datasOf g) from by
      simp only [List.getD]
      rw [renderPages_get? serial _ 0 0 j bl g hget]
      rfl]
    rw [mkPage_headerType]
    have := (flags_testBits (0 + j) bl).1
    rw [this]
    omega
  · intro s b hg
    refine ⟨mkPage s.pageSequence b s.granulePosition s.serial
      s.segmentsInBuffer s.packetSizes s.packetBuffer, ?_, ?_⟩
    · rw [flushPage, if_neg hg]
    · rw [mkPage_headerType]
      exact (flags_testBits s.pageSequence b).2

theorem page_flags_witness :
    ((initState 48000 2 0).pages.getD 0 []) ∈ (runOps 48000 2 0 []).pages ∧
    captureOf ((initState 48000 2 0).pages.getD 0 [])
      = [0x4f, 0x67, 0x67, 0x53] :=
  ⟨by decide, (page_flags 48000 2 0 []).1 _ (by decide)⟩

/-- C7 counterexample: requesting the stream with zero packets beyond the
headers emits a third page of exactly 27 bytes — the bare header with
segment count 0 and *no* segment-table byte — not the 28 bytes (27-byte
header plus one zero-valued segment byte) the claim describes. -/
theorem empty_stream_counterexample :
    ((flushPage true (initState 48000 2 0)).pages.getD 2 []).length = 27 ∧
    segCountByteOf ((flushPage true (initState 48000 2 0)).pages.getD 2 [])
      = 0 ∧
    ((flushPage true (initState 48000 2 0)).pages.getD 2 []).length ≠ 28 := by
  refine ⟨by decide, by decide, by decide⟩

/-- C7 (amended: the third page is the bare 27-byte header — segment-count
byte 0, zero segment-table bytes and zero payload bytes — with the
terminal flag set; no lacing byte is emitted for the empty page). -/
theorem empty_stream_terminal_page (sr ch : Int) (serial : Nat) :
    (flushPage true (initState sr ch serial)).pages.length = 3 ∧
    ((flushPage true (initState sr ch serial)).pages.getD 2 []).length = 27 ∧
    segCountByteOf ((flushPage true (initState sr ch serial)).pages.getD 2 [])
      = 0 ∧
    captureOf ((flushPage true (initState sr ch serial)).pages.getD 2 [])
      = [0x4f, 0x67, 0x67, 0x53] ∧
    (headerTypeOf
      ((flushPage true (initState sr ch serial)).pages.getD 2 [])).testBit 2
      = true := by
  have hs : flushPage true (initState sr ch serial)
      = stateOfGroups sr ch serial (groupFlush true (groupInit sr ch)) := by
    rw [initState_sim, flushPage_sim]
  have hgf : groupFlush true (groupInit sr ch)
      = ([(false, [(idHeaderBytes sr ch, 0)]),
          (false, [(commentHeaderBytes, 0)]), (true, [])], []) := by
    rw [groupInit_eq, groupFlush]
    simp
  rw [hs, hgf]
  have hpage : (stateOfGroups sr ch serial
      ([(false, [(idHeaderBytes sr ch, 0)]),
        (false, [(commentHeaderBytes, 0)]), (true, [])], [])).pages.getD 2 []
      = mkPage 2 true 0 serial 0 [] [] := by
    simp [stateOfGroups, renderPages, sumSamples, groupsSamples, List.getD,
      sizesOf, datasOf, segsOf]
  rw [hpage]
  refine ⟨rfl, ?_, rfl, rfl, ?_⟩
  · rw [mkPage_length]
    rfl
  · rw [mkPage_headerType]
    exact (flags_testBits 2 true).2.mpr rfl

/-- C8 counterexample: constructing with `sampleRate = 0, channelCount = 0`
(and with negative values) is *not* fatal and surfaces nothing — the
constructor runs to completion, emits the usual two header pages, and
silently writes the invalid channel count into the identification header
(byte 37 of the first page, `0` here). -/
theorem construction_counterexample :
    (initState 0 0 0).pages.length = 2 ∧
    (initState (-1) (-3) 0).pages.length = 2 ∧
    ((initState 0 0 0).pages.getD 0 []).getD 37 0 = 0 ∧
    ((initState (-1) (-3) 0).pages.getD 0 []).getD 37 0 = 253 := by
  refine ⟨by decide, by decide, by decide, by decide⟩

/-- C8 (amended: construction performs no validation and has no error path
for *any* integer inputs — zero or negative `sampleRate`/`channelCount`
are accepted silently, construction always completes emitting exactly the
two header pages, and the channel count is written into the
identification header reduced modulo 256). -/
theorem construction_unvalidated (sr ch : Int) (serial : Nat) :
    (initState sr ch serial).pages.length = 2 ∧
    ((initState sr ch serial).pages.getD 0 []).getD 37 0
      = (ch % 256).toNat := by
  constructor
  · rw [initState_sim, groupInit_eq]
    rfl
  · rw [initState_sim, groupInit_eq]
    rfl

/-- C9: a non-terminal flush on an empty pending buffer is a no-op that
returns the state unchanged, whereas a terminal flush always appends one
page — carrying the end-of-stream bit 0x04 — even on an empty buffer, so
the page list always ends with a terminal-flagged page. -/
theorem flush_noop_terminal :
    (∀ s : MuxerState, s.packetBuffer = [] → flushPage false s = s) ∧
    (∀ s : MuxerState, ∃ p, (flushPage true s).pages = s.pages ++ [p] ∧
      (headerTypeOf p).testBit 2 = true ∧
      (flushPage true s).pages.getLast? = some p) := by
  constructor
  · intro s h
    rw [flushPage, if_pos ⟨h, rfl⟩]
  · intro s
    have hg : ¬(s.packetBuffer = [] ∧ true = false) := by simp
    refine ⟨mkPage s.pageSequence true s.granulePosition s.serial
      s.segmentsInBuffer s.packetSizes s.packetBuffer, ?_, ?_, ?_⟩
    · rw [flushPage, if_neg hg]
    · rw [mkPage_headerType]
      exact (flags_testBits s.pageSequence true).2.mpr rfl
    · rw [flushPage, if_neg hg]
      show (s.pages ++ [_]).getLast? = _
      rw [List.getLast?_concat]

theorem flush_noop_terminal_witness :
    (initState 48000 2 0).packetBuffer = [] ∧
    flushPage false (initState 48000 2 0) = initState 48000 2 0 :=
  ⟨by decide, flush_noop_terminal.1 _ (by decide)⟩

/-- C10: when `addPacket` triggers an implicit flush, the flush happens
before the packet's `samples` are added — the flushed page stores the
pre-call granule position, excluding the triggering packet; and for every
emitted page there is a partition of all submitted packets (headers first)
into the per-page groups plus the still-pending tail, such that page `j`'s
granule field is exactly the sum of the sample counts of the packets
serialized into pages `0..j`. -/
theorem granule_excludes_trigger (sr ch : Int) (serial : Nat)
    (ops : List MuxOp) (hb : opsSamples ops < 2 ^ 64) :
    (∀ (d : List Nat) (n : Nat) (s : MuxerState),
      255 < s.segmentsInBuffer + (d.length / 255 + 1) →
      addPacket d n s = acceptPacket d n (flushPage false s) ∧
      (s.packetBuffer ≠ [] → (flushPage false s).pages = s.pages ++
        [mkPage s.pageSequence false s.granulePosition s.serial
          s.segmentsInBuffer s.packetSizes s.packetBuffer])) ∧
    (∃ (gs : List Group) (pend : List TracedPacket),
      (gs.map Prod.snd).flatten ++ pend
        = [(idHeaderBytes sr ch, 0), (commentHeaderBytes, 0)]
            ++ packetsOf ops ∧
      (runOps sr ch serial ops).pages = renderPages serial 0 0 gs ∧
      (∀ (j : Nat) (bl : Bool) (g : List TracedPacket),
        gs.get? j = some (bl, g) →
        granuleFieldOf ((runOps sr ch serial ops).pages.getD j [])
          = sumSamples (((gs.take (j + 1)).map Prod.snd).flatten))) := by
  constructor
  · intro d n s h
    constructor
    · simp only [addPacket]
      rw [if_pos h]
    · intro hne
      rw [flushPage, if_neg (by simp [hne])]
  · refine ⟨(groupRun sr ch ops).1, (groupRun sr ch ops).2, ?_, ?_, ?_⟩
    · have hfp := flatPackets_groupRun sr ch ops
      rw [flatPackets] at hfp
      exact hfp
    · rw [runOps_sim]
      rfl
    · intro j bl g hget
      rw [runOps_sim]
      have hpg := renderPages_get? serial _ 0 0 j bl g hget
      rw [show (stateOfGroups sr ch serial (groupRun sr ch ops)).pages.getD
          j [] = mkPage (0 + j) bl
            (0 + groupsSamples ((groupRun sr ch ops).1.take (j + 1))) serial
            (segsOf (sizesOf g)) (sizesOf g) (datasOf g) from by
        simp only [List.getD]
        show ((renderPages serial 0 0 (groupRun sr ch ops).1).get? j).getD []
          = _
        rw [hpg]
        rfl]
      rw [mkPage_granuleField, ← groupsSamples_eq_flat]
      have htot : groupsSamples (groupRun sr ch ops).1
          + sumSamples (groupRun sr ch ops).2 = opsSamples ops := by
        have h := runOps_granule sr ch serial ops
        rw [runOps_sim] at h
        exact h
      have hsp : groupsSamples ((groupRun sr ch ops).1.take (j + 1))
          ≤ groupsSamples (groupRun sr ch ops).1 := by
        conv_rhs => rw [← List.take_append_drop (j + 1) (groupRun sr ch ops).1]
        rw [groupsSamples_append]
        omega
      omega

theorem granule_excludes_trigger_witness :
    opsSamples ([] : List MuxOp) < 2 ^ 64 ∧
    addPacket [7] 5 (MuxerState.mk 48000 2 0 0 0 [] [] [] 300)
      = acceptPacket [7] 5
          (flushPage false (MuxerState.mk 48000 2 0 0 0 [] [] [] 300)) :=
  ⟨by decide, ((granule_excludes_trigger 48000 2 0 [] (by decide)).1 [7] 5 _
    (by decide)).1⟩

end OggMuxer
